import Mathlib

/-!
Verification of the CSV-to-array parser (src/index.ts).

Strings are modelled as `List Char`; the JavaScript engine iterates `text[i]`
over UTF-16 code units, but every character the parser compares against
(quote, delimiters, CR, LF, comment characters) is ASCII, so iterating
Unicode scalar values is observationally identical.
-/

namespace CsvToArray

/-- The character set trimmed by JavaScript's String.prototype.trim
(WhiteSpace ∪ LineTerminator). -/
def isJsSpace (c : Char) : Bool :=
  c == ' ' || c == '\t' || c == '\n' || c == '\r' || c == '\x0B' || c == '\x0C' ||
  c == '\u00A0' || c == '\u1680' || (('\u2000' ≤ c) && (c ≤ '\u200A')) ||
  c == '\u2028' || c == '\u2029' || c == '\u202F' || c == '\u205F' ||
  c == '\u3000' || c == '\uFEFF'

/-- JavaScript `s.trim()`. -/
def jsTrim (s : List Char) : List Char :=
  ((s.dropWhile isJsSpace).reverse.dropWhile isJsSpace).reverse

/-- The JavaScript values a record cell can hold after projection
(`string | number | boolean | null | undefined`).  A number produced by
`Number(s)` for a string `s` matching the numeric pattern of
`convertToJsTypes` is identified by that (trimmed) source string. -/
inductive JsValue : Type
  | str : List Char → JsValue
  | num : List Char → JsValue
  | boolean : Bool → JsValue
  | null : JsValue
  | undef : JsValue
  deriving DecidableEq, Repr, Inhabited

/-- `s.split(/\r?\n/)` : split on LF or CRLF (a lone CR does not split,
exactly as the regex `\r?\n` requires a LF). `cur` is the piece being
accumulated. -/
def splitCrLf : List Char → List Char → List (List Char)
  | [], cur => [cur]
  | '\r' :: '\n' :: rest, cur => cur :: splitCrLf rest []
  | '\n' :: rest, cur => cur :: splitCrLf rest []
  | c :: rest, cur => splitCrLf rest (cur ++ [c])

/-- `s.split(/\r?\n/, 5).filter(Boolean)` from `detectDelimiter`
(source line 110): the split is truncated to its first 5 pieces and only
then are empty pieces removed. -/
def sampleLines (t : List Char) : List (List Char) :=
  ((splitCrLf t []).take 5).filter (fun l => !l.isEmpty)

/-- `line.split(d).length` for a single-character delimiter `d`. -/
def splitCount (d : Char) (line : List Char) : Nat :=
  line.countP (fun c => c == d) + 1

/-- The candidate delimiters of `detectDelimiter`, in declaration order. -/
def candidates : List Char := [',', ';', '\t', '|']

/-- The average column count of candidate `d` over the detector's sample
(source lines 116-117).  The JavaScript code computes this with
floating-point division; we use exact rationals.  For the empty sample the
source computes `0/0 = NaN` and `NaN > x` is false, while here `0/0 = 0`
and `0 > x` is false at every comparison that occurs, so the fold below
behaves identically. -/
def detAvg (t : List Char) (d : Char) : ℚ :=
  let sample := sampleLines t
  ((sample.map (splitCount d)).sum : ℚ) / (sample.length : ℚ)

/-- One step of the detector's fold over the candidates
(source lines 119-122): replace the running best only on strictly greater
average. -/
def detectStep (t : List Char) (best : Char × ℚ) (d : Char) : Char × ℚ :=
  if best.2 < detAvg t d then (d, detAvg t d) else best

/-- `detectDelimiter` (source lines 108-126): initial best is comma with
baseline average 1. -/
def detectDelimiter (t : List Char) : List Char :=
  [(candidates.foldl (detectStep t) (',', 1)).1]

/-- JavaScript `String.prototype.toLowerCase`, modelled character-wise on
the ASCII domain.  The source's `toLowerCase()` is the Unicode Default
Case Conversion, which on all-ASCII strings coincides exactly with
per-character ASCII lowering: no ASCII character has a multi-character or
context-sensitive lowercase mapping (the U+0130 expansion and the
final-sigma rule concern non-ASCII characters only), and no non-ASCII
character is involved when the input is ASCII.  Outside that domain the
two differ (e.g. the source lowercases U+00C4 to U+00E4 while this function is the
identity there), so every theorem whose conclusion depends on the values
this normalization produces carries an explicit `headerNamesAscii`
hypothesis confining it to the faithful domain. -/
def asciiLower (c : Char) : Char :=
  if 'A' ≤ c ∧ c ≤ 'Z' then Char.ofNat (c.toNat + 32) else c

/-- `normalizeHeaders` (source lines 128-133): trim, strip one leading
U+FEFF, lowercase unless `preserve` (lowercasing per `asciiLower`, see its
fidelity note). -/
def normalizeHeaders (headers : List (List Char)) (preserve : Bool) :
    List (List Char) :=
  headers.map (fun h =>
    let v := jsTrim h
    let v := match v with
      | '\uFEFF' :: r => r
      | w => w
    if preserve then v else v.map asciiLower)

/-- The optional-exponent suffix `([eE][+-]?\d+)?$` of the numeric regex in
`convertToJsTypes`. -/
def expTail : List Char → Bool
  | [] => true
  | e :: t =>
    (e == 'e' || e == 'E') &&
    (let t1 := match t with
       | '+' :: tt => tt
       | '-' :: tt => tt
       | tt => tt
     let es := t1.takeWhile Char.isDigit
     (!es.isEmpty) && (t1.drop es.length).isEmpty)

/-- The regex `^-?\d+(\.\d+)?([eE][+-]?\d+)?$` of `convertToJsTypes`
(source line 142). -/
def matchesNumber (s : List Char) : Bool :=
  let s1 := match s with
    | '-' :: r => r
    | r => r
  let ds := s1.takeWhile Char.isDigit
  let r1 := s1.drop ds.length
  (!ds.isEmpty) &&
    (match r1 with
     | '.' :: t =>
         let fs := t.takeWhile Char.isDigit
         (!fs.isEmpty) && expTail (t.drop fs.length)
     | r => expTail r)

/-- `convertToJsTypes` (source lines 135-147), on the domain it is actually
applied to in `parseCSV`: a cell is a string or `undefined` (`none`).
The branches `v == null` and `typeof v !== "string"` both return `v`
unchanged, which on this domain is exactly the `none ↦ undef` case.
For a string matching the numeric regex, `Number(s)` is a finite double
(the regex admits only decimal literals), so the `Number.isNaN` guard
never rejects and the result is the number denoted by `s`. -/
def convertToJsTypes : Option (List Char) → JsValue
  | none => .undef
  | some v =>
    let s := jsTrim v
    if s = [] then .str []
    else if s.map Char.toLower = "true".data then .boolean true
    else if s.map Char.toLower = "false".data then .boolean false
    else if s.map Char.toLower = "null".data then .null
    else if matchesNumber s then .num s
    else .str s

/-- Dropping a prefix never lengthens a list (termination helper). -/
theorem length_dropWhile_le {α : Type} (p : α → Bool) (l : List α) :
    (l.dropWhile p).length ≤ l.length := by
  induction l with
  | nil => simp [List.dropWhile]
  | cons a l ih =>
      rw [List.dropWhile_cons]
      cases h : p a <;> simp <;> omega

/-- Termination helper for the comment-skipping branch of `runRows`. -/
theorem drop1_dropWhile_lt (p : Char → Bool) (c : Char) (rest : List Char) :
    (((c :: rest).dropWhile p).drop 1).length < (c :: rest).length := by
  have h := length_dropWhile_le p (c :: rest)
  simp only [List.length_drop, List.length_cons] at *
  omega

/-- Termination helper for the CRLF branch of `runRows`. -/
theorem ite_tail_len_lt {P : Prop} [Decidable P] (c : Char) (rest : List Char) :
    (if P then rest.tail else rest).length < (c :: rest).length := by
  split <;> simp [List.length_tail] <;> omega

/-- The `pushRow` closure of `parseRows` (source lines 163-168): append the
completed row unless skip-empty-lines elides a single blank field. -/
def emitRow (skipEmpty : Bool) (row : List (List Char)) :
    List (List (List Char)) :=
  if skipEmpty ∧ row.length = 1 ∧ jsTrim row.headI = [] then [] else [row]

/-- The character loop of `parseRows` (source lines 174-218).  `field`,
`row` and `inQ` are the mutable state of the source; completed rows are
returned (in order) instead of accumulated in a mutable array.  The source's
comment skip `while (i < len && text[i] !== "\n") i++; continue;` is the
`dropWhile`/`drop 1` continuation of the first branch. -/
def runRows (d : List Char) (com : Option (List Char)) (skipEmpty : Bool)
    (t : List Char) (field : List Char) (row : List (List Char))
    (inQ : Bool) : List (List (List Char)) :=
  match t with
  | [] =>
      -- pushField(); if (row.length > 1 || row[0] !== "") pushRow();
      let row1 := row ++ [field]
      if 1 < row1.length ∨ row1.headI ≠ [] then emitRow skipEmpty row1 else []
  | c :: rest =>
      if inQ = false ∧ field = [] ∧ row = [] ∧ com = some [c] then
        runRows d com skipEmpty
          (((c :: rest).dropWhile (fun x => x != '\n')).drop 1) [] [] inQ
      else if c = '"' then
        -- if (inQuotes && next === '"') { field += '"'; i++ } else toggle
        if inQ = true ∧ rest.head? = some '"' then
          runRows d com skipEmpty rest.tail (field ++ ['"']) row true
        else
          runRows d com skipEmpty rest field row (!inQ)
      else if inQ = false ∧ d = [c] then
        runRows d com skipEmpty rest [] (row ++ [field]) inQ
      else if inQ = false ∧ (c = '\n' ∨ c = '\r') then
        emitRow skipEmpty (row ++ [field]) ++
          runRows d com skipEmpty
            (if c = '\r' ∧ rest.head? = some '\n' then rest.tail else rest)
            [] [] inQ
      else
        runRows d com skipEmpty rest (field ++ [c]) row inQ
termination_by t.length
decreasing_by
  all_goals first
    | exact drop1_dropWhile_lt _ _ _
    | exact ite_tail_len_lt _ _
    | (simp only [List.length_tail, List.length_cons]; omega)

/-- `parseRows` (source lines 149-219). -/
def parseRows (text : List Char) (d : List Char) (com : Option (List Char))
    (skipEmpty : Bool) : List (List (List Char)) :=
  runRows d com skipEmpty text [] [] false

/-- A record: a JavaScript object as an insertion-ordered association list
with unique keys, as produced by repeated property assignment. -/
abbrev CsvRow := List (List Char × JsValue)

/-- JavaScript property assignment `obj[key] = v`: overwrite in place if the
key exists, otherwise append at the end (object insertion order). -/
def objSet (r : CsvRow) (k : List Char) (v : JsValue) : CsvRow :=
  if r.any (fun p => p.1 == k) then
    r.map (fun p => if p.1 = k then (k, v) else p)
  else r ++ [(k, v)]

/-- The `headers` option: `true` | `false` | explicit name list. -/
inductive HeadersOption : Type
  | firstRow : HeadersOption
  | noHeaders : HeadersOption
  | explicitList : List (List Char) → HeadersOption
  deriving DecidableEq

/-- `CsvOptions` (source lines 1-18) with the defaults destructured at the
top of `parseCSV` (source lines 26-34).  `defval` is the source's
`unknown`; we model it as a `JsValue`. -/
structure CsvOptions where
  delimiter : Option (List Char) := none
  headers : HeadersOption := .firstRow
  preserveHeaderCase : Bool := false
  comment : Option (List Char) := none
  skipEmptyLines : Bool := true
  defval : JsValue := .null
  inferTypes : Bool := false
  trimCells : Bool := true

/-- `stripBOM` (source lines 104-106). -/
def stripBOM (s : List Char) : List Char :=
  match s with
  | '\uFEFF' :: r => r
  | t => t

/-- `widestRow` (source lines 221-226). -/
def widestRow (rows : List (List (List Char))) : Nat :=
  rows.foldl (fun w r => if w < r.length then r.length else w) 0

/-- A synthesized header name `c{i}` (template literal in source
lines 53 and 61). -/
def synthName (i : Nat) : List Char := 'c' :: (toString i).data

/-- Header resolution (source lines 49-57): the header names before
widening, and the index at which data rows begin. -/
def headerPlan (o : CsvOptions) (rows : List (List (List Char))) :
    List (List Char) × Nat :=
  match o.headers with
  | .explicitList names => (normalizeHeaders names o.preserveHeaderCase, 1)
  | .noHeaders => ((List.range rows.headI.length).map synthName, 0)
  | .firstRow => (normalizeHeaders rows.headI o.preserveHeaderCase, 1)

/-- Header widening (source lines 59-62): extend the resolved names with
`c{i}` up to `width = max(headerNames.length, widestRow(rows))`. -/
def widenedHeaders (o : CsvOptions) (rows : List (List (List Char))) :
    List (List Char) :=
  let h0 := (headerPlan o rows).1
  let width := max h0.length (widestRow rows)
  h0 ++ (List.range' h0.length (width - h0.length)).map synthName

/-- The per-cell pipeline of the projection loop (source lines 70-72):
`cell = row[c]` (already looked up by the caller), optional trim, then
`inferTypes ? convertToJsTypes(cell) : cell ?? defval`.  Note that the
conditional binds looser than `??`, so the nullish-coalescing default
applies only on the `inferTypes` disabled branch. -/
def projectCell (o : CsvOptions) (cell : Option (List Char)) : JsValue :=
  let cell := match cell with
    | some s => some (if o.trimCells then jsTrim s else s)
    | none => none
  if o.inferTypes then convertToJsTypes cell
  else match cell with
    | some s => .str s
    | none => o.defval

/-- The projection loop body for one row (source lines 67-74):
`for (c = 0; c < width; c++) csvRow[headerNames[c]] = …` where
`width = hs.length` for the widened header list `hs`. -/
def projectRow (o : CsvOptions) (hs : List (List Char))
    (row : List (List Char)) : CsvRow :=
  (List.range hs.length).foldl
    (fun acc c => objSet acc (hs.getD c []) (projectCell o row[c]?)) []

/-- `opts.delimiter ?? detectDelimiter(cleaned)` (source line 38). -/
def resolveDelim (o : CsvOptions) (cleaned : List Char) : List Char :=
  match o.delimiter with
  | some d0 => d0
  | none => detectDelimiter cleaned

/-- The back half of `parseCSV` (source lines 44-76): the early return on an
empty row list, header resolution and widening, and the projection loop
over `rows[dataStart..]`. -/
def projectAll (o : CsvOptions) (rows : List (List (List Char))) :
    List CsvRow :=
  if rows = [] then []
  else
    (rows.drop (headerPlan o rows).2).map (projectRow o (widenedHeaders o rows))

/-- `parseCSV` (source lines 22-77), from the decoded input text on
(the `toText` input adapter is outside the core). -/
def parseCSV (text : List Char) (o : CsvOptions) : List CsvRow :=
  let cleaned := stripBOM text
  projectAll o
    (parseRows cleaned (resolveDelim o cleaned) o.comment o.skipEmptyLines)

/-- The sample construction as claim C3 words it (for comparison with
`sampleLines`, which is translated from the source): split the text into
lines on CR, LF, or CRLF line endings, and take up to the first 5
non-empty lines. -/
def splitAnyEol : List Char → List Char → List (List Char)
  | [], cur => [cur]
  | '\r' :: '\n' :: rest, cur => cur :: splitAnyEol rest []
  | '\r' :: rest, cur => cur :: splitAnyEol rest []
  | '\n' :: rest, cur => cur :: splitAnyEol rest []
  | c :: rest, cur => splitAnyEol rest (cur ++ [c])

/-- Double every quote character (the standard CSV escaping of a field
body). -/
def doubleQuotes : List Char → List Char
  | [] => []
  | c :: r =>
      if c = '"' then '"' :: '"' :: doubleQuotes r else c :: doubleQuotes r

/-- Standard CSV quoting of a field: double internal quotes and wrap the
whole field in quotes. -/
def encodeQuoted (s : List Char) : List Char :=
  '"' :: doubleQuotes s ++ ['"']

/-- The rows a quote-free, comment-free text yields when the delimiter
never fires: each physical line becomes a single-field row, interior lines
pass through the skip-empty-lines filter, and a final empty line is
dropped. -/
def rowsOfLines (sk : Bool) : List (List Char) → List (List (List Char))
  | [] => []
  | [l] => if l ≠ [] then emitRow sk [l] else []
  | l :: ls => emitRow sk [l] ++ rowsOfLines sk ls

/-- A text assembled from lines with an explicit separator: the common
shape of a pair of inputs that are identical except for their line
endings. -/
def joinSep (sep : List Char) : List (List Char) → List Char
  | [] => []
  | [l] => l
  | l :: ls => l ++ (sep ++ joinSep sep ls)

/-! ### Theorems

One-step unfolding lemmas for the tokenizer loop come first: each
corresponds to one branch of the `for` loop of `parseRows`, with
hypotheses stating that the earlier branches did not fire.  The claim
theorems follow. -/

section StepLemmas

variable (d : List Char) (com : Option (List Char)) (sk : Bool)

/-- End of input: close the field; emit the row unless it is a lone empty
field (and then still subject to the skip-empty-lines filter). -/
theorem runRows_nil (field : List Char) (row : List (List Char)) (inQ : Bool) :
    runRows d com sk [] field row inQ =
      if 1 < (row ++ [field]).length ∨ (row ++ [field]).headI ≠ [] then
        emitRow sk (row ++ [field])
      else [] := by
  rw [runRows]

/-- Start-of-line comment branch. -/
theorem runRows_comment (c : Char) (rest : List Char)
    (hcom : com = some [c]) :
    runRows d com sk (c :: rest) [] [] false =
      runRows d com sk (((c :: rest).dropWhile (fun x => x != '\n')).drop 1)
        [] [] false := by
  rw [runRows]
  simp [hcom]

/-- Escaped-quote branch. -/
theorem runRows_quote_esc (rest field : List Char) (row : List (List Char))
    (hq : rest.head? = some '"') :
    runRows d com sk ('"' :: rest) field row true =
      runRows d com sk rest.tail (field ++ ['"']) row true := by
  rw [runRows]
  simp [hq]

/-- Quote-toggle branch. -/
theorem runRows_quote_toggle (rest field : List Char) (row : List (List Char))
    (inQ : Bool)
    (hcom : ¬(inQ = false ∧ field = [] ∧ row = [] ∧ com = some ['"']))
    (hesc : ¬(inQ = true ∧ rest.head? = some '"')) :
    runRows d com sk ('"' :: rest) field row inQ =
      runRows d com sk rest field row (!inQ) := by
  rw [runRows]
  simp [hcom, hesc]

/-- Delimiter branch (only outside quotes). -/
theorem runRows_delim (c : Char) (rest field : List Char)
    (row : List (List Char))
    (hq : c ≠ '"')
    (hcom : ¬(field = [] ∧ row = [] ∧ com = some [c]))
    (hd : d = [c]) :
    runRows d com sk (c :: rest) field row false =
      runRows d com sk rest [] (row ++ [field]) false := by
  rw [runRows]
  simp [hcom, hq, hd]

/-- Line-ending branch (only outside quotes): close field and row, and
consume a LF following a CR. -/
theorem runRows_newline (c : Char) (rest field : List Char)
    (row : List (List Char))
    (hnl : c = '\n' ∨ c = '\r')
    (hcom : ¬(field = [] ∧ row = [] ∧ com = some [c]))
    (hd : d ≠ [c]) :
    runRows d com sk (c :: rest) field row false =
      emitRow sk (row ++ [field]) ++
        runRows d com sk
          (if c = '\r' ∧ rest.head? = some '\n' then rest.tail else rest)
          [] [] false := by
  rcases hnl with h | h <;> subst h <;> rw [runRows] <;> simp [hcom, hd]

/-- CRLF line ending: both characters consumed as one line ending. -/
theorem runRows_crlf (rest field : List Char) (row : List (List Char))
    (hcom : ¬(field = [] ∧ row = [] ∧ com = some ['\r']))
    (hd : d ≠ ['\r']) :
    runRows d com sk ('\r' :: '\n' :: rest) field row false =
      emitRow sk (row ++ [field]) ++ runRows d com sk rest [] [] false := by
  rw [runRows_newline d com sk '\r' ('\n' :: rest) field row
    (Or.inr rfl) hcom hd]
  simp

/-- Lone-CR line ending. -/
theorem runRows_cr (rest field : List Char) (row : List (List Char))
    (hh : rest.head? ≠ some '\n')
    (hcom : ¬(field = [] ∧ row = [] ∧ com = some ['\r']))
    (hd : d ≠ ['\r']) :
    runRows d com sk ('\r' :: rest) field row false =
      emitRow sk (row ++ [field]) ++ runRows d com sk rest [] [] false := by
  rw [runRows_newline d com sk '\r' rest field row (Or.inr rfl) hcom hd]
  simp [hh]

/-- LF line ending. -/
theorem runRows_lf (rest field : List Char) (row : List (List Char))
    (hcom : ¬(field = [] ∧ row = [] ∧ com = some ['\n']))
    (hd : d ≠ ['\n']) :
    runRows d com sk ('\n' :: rest) field row false =
      emitRow sk (row ++ [field]) ++ runRows d com sk rest [] [] false := by
  rw [runRows_newline d com sk '\n' rest field row (Or.inl rfl) hcom hd]
  simp

/-- Ordinary-character branch: append to the field buffer. -/
theorem runRows_char (c : Char) (rest field : List Char)
    (row : List (List Char)) (inQ : Bool)
    (hcom : ¬(inQ = false ∧ field = [] ∧ row = [] ∧ com = some [c]))
    (hq : c ≠ '"')
    (hd : ¬(inQ = false ∧ d = [c]))
    (hnl : ¬(inQ = false ∧ (c = '\n' ∨ c = '\r'))) :
    runRows d com sk (c :: rest) field row inQ =
      runRows d com sk rest (field ++ [c]) row inQ := by
  rw [runRows]
  simp [hcom, hq, hd, hnl]

/-- Inside quotes, any non-quote character is literal field content. -/
theorem runRows_char_inq (c : Char) (rest field : List Char)
    (row : List (List Char)) (hq : c ≠ '"') :
    runRows d com sk (c :: rest) field row true =
      runRows d com sk rest (field ++ [c]) row true := by
  apply runRows_char <;> simp [hq]

end StepLemmas

/-- Every candidate average over a non-empty sample is at least 1
(each line splits into at least one column). -/
theorem length_le_sum_counts (dc : Char) (l : List (List Char)) :
    l.length ≤ (l.map (splitCount dc)).sum := by
  induction l with
  | nil => simp
  | cons a l ih =>
      simp only [List.map_cons, List.sum_cons, List.length_cons, splitCount]
      omega

/-- Baseline bound on detector averages for a non-empty sample. -/
theorem one_le_detAvg (t : List Char) (hs : sampleLines t ≠ []) (dc : Char) :
    1 ≤ detAvg t dc := by
  unfold detAvg
  have hlen : 0 < ((sampleLines t).length : ℚ) := by
    have : 0 < (sampleLines t).length := List.length_pos.mpr hs
    exact_mod_cast this
  rw [le_div_iff₀ hlen, one_mul]
  exact_mod_cast length_le_sum_counts dc (sampleLines t)

/-- C4: over a non-empty sample, a candidate whose average column count
strictly beats every other candidate is selected; and if no candidate's
average exceeds the baseline 1, the initial best (comma, the earliest
candidate in declaration order) is returned. -/
theorem c4_detector (t : List Char) (hs : sampleLines t ≠ []) :
    (∀ c ∈ candidates,
        (∀ c' ∈ candidates, c' ≠ c → detAvg t c' < detAvg t c) →
          detectDelimiter t = [c]) ∧
      ((∀ c ∈ candidates, detAvg t c ≤ 1) → detectDelimiter t = [',']) := by
  have h1 := one_le_detAvg t hs ','
  have h2 := one_le_detAvg t hs ';'
  have h3 := one_le_detAvg t hs '\t'
  have h4 := one_le_detAvg t hs '|'
  constructor
  · intro c hc hbeats
    simp only [candidates, List.mem_cons, List.not_mem_nil, or_false] at hc
    rcases hc with rfl | rfl | rfl | rfl
    · have b2 := hbeats ';' (by decide) (by decide)
      have b3 := hbeats '\t' (by decide) (by decide)
      have b4 := hbeats '|' (by decide) (by decide)
      unfold detectDelimiter candidates
      simp only [List.foldl, detectStep]
      split_ifs <;> first | rfl | (exfalso; simp only [] at *; linarith)
    · have b1 := hbeats ',' (by decide) (by decide)
      have b3 := hbeats '\t' (by decide) (by decide)
      have b4 := hbeats '|' (by decide) (by decide)
      unfold detectDelimiter candidates
      simp only [List.foldl, detectStep]
      split_ifs <;> first | rfl | (exfalso; simp only [] at *; linarith)
    · have b1 := hbeats ',' (by decide) (by decide)
      have b2 := hbeats ';' (by decide) (by decide)
      have b4 := hbeats '|' (by decide) (by decide)
      unfold detectDelimiter candidates
      simp only [List.foldl, detectStep]
      split_ifs <;> first | rfl | (exfalso; simp only [] at *; linarith)
    · have b1 := hbeats ',' (by decide) (by decide)
      have b2 := hbeats ';' (by decide) (by decide)
      have b3 := hbeats '\t' (by decide) (by decide)
      unfold detectDelimiter candidates
      simp only [List.foldl, detectStep]
      split_ifs <;> first | rfl | (exfalso; simp only [] at *; linarith)
  · intro hall
    have a1 := hall ',' (by decide)
    have a2 := hall ';' (by decide)
    have a3 := hall '\t' (by decide)
    have a4 := hall '|' (by decide)
    unfold detectDelimiter candidates
    simp only [List.foldl, detectStep]
    split_ifs <;> first | rfl | (exfalso; simp only [] at *; linarith)

/-- C4 witness: on `"a;b"` the semicolon average (2) strictly beats every
other candidate's (1), and the detector picks semicolon. -/
theorem c4_witness :
    sampleLines "a;b".data ≠ [] ∧ detectDelimiter "a;b".data = [';'] := by
  have havg : ∀ c' ∈ candidates, c' ≠ ';' →
      detAvg "a;b".data c' < detAvg "a;b".data ';' := by
    intro c' hc' hne
    simp only [candidates, List.mem_cons, List.not_mem_nil, or_false] at hc'
    rcases hc' with rfl | rfl | rfl | rfl <;>
      first
        | exact absurd rfl hne
        | (norm_num [detAvg, sampleLines, splitCrLf, splitCount]; decide)
  exact ⟨by decide,
    (c4_detector "a;b".data (by decide)).1 ';' (by decide) havg⟩

/-- Inside quotes, the tokenizer consumes an escaped field body followed by
the closing quote, accumulating exactly the original body and leaving the
quoted state. -/
theorem runRows_quoted_body (d : List Char) (com : Option (List Char))
    (sk : Bool) (s : List Char) :
    ∀ field row,
      runRows d com sk (doubleQuotes s ++ ['"']) field row true =
        runRows d com sk [] (field ++ s) row false := by
  induction s with
  | nil =>
      intro field row
      show runRows d com sk ('"' :: []) field row true = _
      rw [runRows_quote_toggle _ _ _ _ _ _ _ (by simp) (by simp)]
      simp
  | cons c cs ih =>
      intro field row
      by_cases hc : c = '"'
      · subst hc
        show runRows d com sk
            ('"' :: ('"' :: (doubleQuotes cs ++ ['"']))) field row true = _
        rw [runRows_quote_esc _ _ _ _ _ _ (by simp)]
        simp only [List.tail_cons]
        rw [ih (field ++ ['"']) row]
        simp
      · have hdq : doubleQuotes (c :: cs) = c :: doubleQuotes cs := by
          simp only [doubleQuotes]
          rw [if_neg hc]
        rw [hdq, List.cons_append]
        rw [runRows_char_inq _ _ _ _ _ _ _ hc, ih (field ++ [c]) row]
        simp

/-- C5 counterexample: for `s = " x"` the quoted encoding tokenizes back to
the single field `" x"`, but the projected value under default options is
the trimmed `"x"`, not `s` verbatim. -/
theorem c5_counterexample :
    parseRows (encodeQuoted " x".data) [','] none true = [[" x".data]] ∧
      projectCell {} (some " x".data) = JsValue.str "x".data ∧
      JsValue.str "x".data ≠ JsValue.str " x".data := by
  refine ⟨?_, by decide, by decide⟩
  simp [parseRows, runRows, emitRow, encodeQuoted, doubleQuotes, jsTrim,
    isJsSpace]

/-- C5 (amended): for every string `s` whose JS-trimmed value is non-empty
and every single-character delimiter, tokenizing the quoted encoding of
`s` under default options yields exactly one row with the single field `s`
verbatim (the quote branch precedes the delimiter branch, so even a quote
delimiter changes nothing); its projected value under default options is
the trimmed `s` — equal to `s` itself exactly when `s` carries no leading
or trailing whitespace.  (When the trimmed value is empty,
skip-empty-lines discards the row entirely, so not even a field is
produced.) -/
theorem c5_amended (s : List Char) (dc : Char)
    (hs : jsTrim s ≠ []) :
    parseRows (encodeQuoted s) [dc] none true = [[s]] ∧
      projectCell {} (some s) = JsValue.str (jsTrim s) := by
  constructor
  · show runRows [dc] none true ('"' :: (doubleQuotes s ++ ['"'])) [] [] false
        = _
    rw [runRows_quote_toggle _ _ _ _ _ _ _ (by simp) (by simp)]
    rw [show (!false) = true from rfl]
    rw [runRows_quoted_body]
    rw [runRows_nil]
    have hsne : s ≠ [] := fun h => hs (by rw [h]; rfl)
    simp [emitRow, hsne, hs]
  · rfl

/-- C5 amended-claim witness at `s = "a,\nb"` (a field containing both the
delimiter and an embedded newline) with the comma delimiter. -/
theorem c5_witness :
    parseRows (encodeQuoted "a,\nb".data) [','] none true =
        [["a,\nb".data]] ∧
      projectCell {} (some "a,\nb".data) =
        JsValue.str (jsTrim "a,\nb".data) :=
  c5_amended "a,\nb".data ',' (by decide)

/-- C7 counterexample: with the two-character comment prefix `"//"` the
claim predicts that `'/'` starts a comment, so `"//x\na"` would tokenize to
the single row `[["a"]]`; the source compares the one-character `ch`
against the entire `comment` string, which never matches a two-character
prefix, and the text tokenizes to two rows. -/
theorem c7_counterexample :
    parseRows "//x\na".data [','] (some "//".data) true =
        [["//x".data], ["a".data]] ∧
      parseRows "//x\na".data [','] (some "//".data) true ≠ [["a".data]] := by
  have h : parseRows "//x\na".data [','] (some "//".data) true =
      [["//x".data], ["a".data]] := by
    simp [parseRows, runRows, emitRow, jsTrim, isJsSpace]
  refine ⟨h, ?_⟩
  rw [h]
  decide

/-- C7 (amended): the tokenizer's comment test compares the current
character with the entire configured prefix string, so a prefix of length
at least two never matches and comment skipping never occurs: tokenization
behaves exactly as if no comment prefix were configured. -/
theorem c7_amended (cs : List Char) (h2 : 2 ≤ cs.length)
    (d : List Char) (sk : Bool) (t field : List Char) (row : List (List Char))
    (inQ : Bool) :
    runRows d (some cs) sk t field row inQ =
      runRows d none sk t field row inQ := by
  induction t, field, row, inQ using runRows.induct d (some cs) sk with
  | case1 field row inQ h => rw [runRows_nil, runRows_nil]
  | case2 field row inQ h => rw [runRows_nil, runRows_nil]
  | case3 field row inQ c t h ih =>
      exfalso
      obtain ⟨-, -, -, he⟩ := h
      injection he with he
      subst he
      simp at h2
  | case4 field row inQ t hesc hcom ih =>
      obtain ⟨hq, hh⟩ := hesc
      subst hq
      rw [runRows_quote_esc _ _ _ _ _ _ hh, runRows_quote_esc _ _ _ _ _ _ hh,
        ih]
  | case5 field row inQ t hesc hcom ih =>
      rw [runRows_quote_toggle _ _ _ _ _ _ _ hcom hesc,
        runRows_quote_toggle _ _ _ _ _ _ _ (by simp) hesc, ih]
  | case6 field row inQ c t hcom hq hdd ih =>
      obtain ⟨hinq, hdc⟩ := hdd
      subst hinq
      rw [runRows_delim _ _ _ _ _ _ _ hq (by simpa using hcom) hdc,
        runRows_delim _ _ _ _ _ _ _ hq (by simp) hdc, ih]
  | case7 field row inQ c t hcom hq hdn hnl ih =>
      obtain ⟨hinq, hcr⟩ := hnl
      subst hinq
      rw [runRows_newline _ _ _ _ _ _ _ hcr (by simpa using hcom)
          (by simpa using hdn),
        runRows_newline _ _ _ _ _ _ _ hcr (by simp) (by simpa using hdn)]
      simp only [dite_eq_ite] at ih
      rw [ih]
  | case8 field row inQ c t hcom hq hdn hnl ih =>
      rw [runRows_char _ _ _ _ _ _ _ _ hcom hq hdn hnl,
        runRows_char _ _ _ _ _ _ _ _ (by simp) hq hdn hnl, ih]

/-- C7 amended-claim witness at the concrete prefix `"//"`. -/
theorem c7_witness :
    2 ≤ "//".data.length ∧
      runRows [','] (some "//".data) true "//x\na".data [] [] false =
        runRows [','] none true "//x\na".data [] [] false :=
  ⟨by decide,
    c7_amended "//".data (by decide) [','] true "//x\na".data [] [] false⟩

/-- `parseCSV` unfolded into its pipeline stages. -/
theorem parseCSV_eq (text : List Char) (o : CsvOptions) :
    parseCSV text o =
      projectAll o (parseRows (stripBOM text) (resolveDelim o (stripBOM text))
        o.comment o.skipEmptyLines) := rfl

/-- C1 (code bug): the projection writes
`inferTypes ? convertToJsTypes(cell) : cell ?? defval`, and the conditional
binds looser than `??`, so with type inference enabled a missing cell is
passed through `convertToJsTypes` (which returns `undefined` unchanged) and
the configured default is never substituted.  On `"a,b\n1"` with
`inferTypes` and `defval = "-"`, key `b` is `undefined` rather than `"-"`;
with inference disabled the same input does receive the default.  This
contradicts the option's own documentation ("Fill missing cells with this
value"). -/
theorem c1_defval_skipped_under_inference :
    parseCSV "a,b\n1".data
        { delimiter := some [','], inferTypes := true,
          defval := JsValue.str "-".data } =
      [[("a".data, JsValue.num "1".data), ("b".data, JsValue.undef)]] ∧
      parseCSV "a,b\n1".data
        { delimiter := some [','], defval := JsValue.str "-".data } =
      [[("a".data, JsValue.str "1".data), ("b".data, JsValue.str "-".data)]] := by
  have hrows : parseRows "a,b\n1".data [','] none true =
      [["a".data, "b".data], ["1".data]] := by
    simp [parseRows, runRows, emitRow, jsTrim, isJsSpace]
  constructor
  · show projectAll
        { delimiter := some [','], inferTypes := true,
          defval := JsValue.str "-".data }
        (parseRows "a,b\n1".data [','] none true) = _
    rw [hrows]
    decide
  · show projectAll { delimiter := some [','], defval := JsValue.str "-".data }
        (parseRows "a,b\n1".data [','] none true) = _
    rw [hrows]
    decide

/-- Equation: CR not followed by LF still ends a line in the claim's
splitter. -/
theorem splitAnyEol_cr (a : Char) (as cur : List Char) (ha : a ≠ '\n') :
    splitAnyEol ('\r' :: a :: as) cur = cur :: splitAnyEol (a :: as) [] := by
  simp [splitAnyEol, ha]

/-- Equation: a character that is neither CR nor LF is accumulated. -/
theorem splitAnyEol_other (c : Char) (rest cur : List Char)
    (h2 : c ≠ '\r') (h3 : c ≠ '\n') :
    splitAnyEol (c :: rest) cur = splitAnyEol rest (cur ++ [c]) := by
  simp [splitAnyEol, h2, h3]

/-- Physical-line splitting never yields an empty list. -/
theorem splitAnyEol_ne_nil : ∀ (t cur : List Char),
    splitAnyEol t cur ≠ [] := by
  intro t cur
  induction t, cur using splitAnyEol.induct with
  | case1 cur => simp [splitAnyEol]
  | case2 rest cur ih => simp [splitAnyEol]
  | case3 rest cur hne ih =>
      cases rest with
      | nil => simp [splitAnyEol]
      | cons a as =>
          have ha : a ≠ '\n' := fun h => hne as (by rw [h])
          rw [splitAnyEol_cr a as cur ha]
          simp
  | case4 rest cur ih => simp [splitAnyEol]
  | case5 c rest cur h1 h2 h3 ih =>
      rw [splitAnyEol_other c rest cur h2 h3]
      exact ih

/-- `rowsOfLines` on a line followed by more lines. -/
theorem rowsOfLines_cons_ne (sk : Bool) (l : List Char)
    (ls : List (List Char)) (h : ls ≠ []) :
    rowsOfLines sk (l :: ls) = emitRow sk [l] ++ rowsOfLines sk ls := by
  cases ls with
  | nil => exact absurd rfl h
  | cons a as => rfl

/-- When every single-character comparison against the delimiter fails, a
quote-free comment-free text tokenizes into its physical lines, one field
per line. -/
theorem runRows_no_delim (dl : List Char) (hd : ∀ c : Char, dl ≠ [c])
    (sk : Bool) :
    ∀ t cur, '"' ∉ t →
      runRows dl none sk t cur [] false =
        rowsOfLines sk (splitAnyEol t cur) := by
  intro t cur
  induction t, cur using splitAnyEol.induct with
  | case1 cur =>
      intro _
      rw [runRows_nil]
      simp [splitAnyEol, rowsOfLines]
  | case2 rest cur ih =>
      intro hq
      have hq' : '"' ∉ rest := fun h => hq (by simp [h])
      rw [runRows_crlf dl none sk rest cur [] (by simp) (hd '\r')]
      rw [ih hq']
      rw [show splitAnyEol ('\r' :: '\n' :: rest) cur =
        cur :: splitAnyEol rest [] from rfl]
      rw [rowsOfLines_cons_ne sk cur _ (splitAnyEol_ne_nil rest [])]
      simp
  | case3 rest cur hne ih =>
      intro hq
      have hq' : '"' ∉ rest := fun h => hq (by simp [h])
      have hhead : rest.head? ≠ some '\n' := by
        intro h
        cases rest with
        | nil => simp at h
        | cons a as =>
            simp at h
            exact hne as (by rw [h])
      rw [runRows_cr dl none sk rest cur [] hhead (by simp) (hd '\r')]
      rw [ih hq']
      have hsp : splitAnyEol ('\r' :: rest) cur =
          cur :: splitAnyEol rest [] := by
        cases rest with
        | nil => simp [splitAnyEol]
        | cons a as =>
            have ha : a ≠ '\n' := fun h => hne as (by rw [h])
            exact splitAnyEol_cr a as cur ha
      rw [hsp, rowsOfLines_cons_ne sk cur _ (splitAnyEol_ne_nil rest [])]
      simp
  | case4 rest cur ih =>
      intro hq
      have hq' : '"' ∉ rest := fun h => hq (by simp [h])
      rw [runRows_lf dl none sk rest cur [] (by simp) (hd '\n')]
      rw [ih hq']
      rw [show splitAnyEol ('\n' :: rest) cur = cur :: splitAnyEol rest []
        from rfl]
      rw [rowsOfLines_cons_ne sk cur _ (splitAnyEol_ne_nil rest [])]
      simp
  | case5 c rest cur h1 h2 h3 ih =>
      intro hq
      have hcq : c ≠ '"' := fun h => hq (by simp [h])
      have hq' : '"' ∉ rest := fun h => hq (by simp [h])
      rw [runRows_char dl none sk c rest cur [] false
        (by simp) hcq (by simp [hd c]) (by simp; exact ⟨h3, h2⟩)]
      rw [ih hq']
      rw [splitAnyEol_other c rest cur h2 h3]

/-- C10: a delimiter string of length at least two never equals the
single-character `ch` compared against it, so it never produces a field
boundary; outside quotes (no quote character in the text, no comment
configured) every physical line is tokenized as one single-field row. -/
theorem c10_multichar_delimiter (dl : List Char) (h2 : 2 ≤ dl.length)
    (t : List Char) (hq : '"' ∉ t) (sk : Bool) :
    (∀ c : Char, dl ≠ [c]) ∧
      parseRows t dl none sk = rowsOfLines sk (splitAnyEol t []) := by
  have hd : ∀ c : Char, dl ≠ [c] := by
    intro c h
    rw [h] at h2
    simp at h2
  exact ⟨hd, runRows_no_delim dl hd sk t [] hq⟩

/-- C10 witness: with the two-character delimiter `"::"` the text
`"a:b\nc"` tokenizes to one single-field row per physical line. -/
theorem c10_witness :
    "::".data ≠ [':'] ∧
      parseRows "a:b\nc".data "::".data none true =
        [["a:b".data], ["c".data]] := by
  have h := c10_multichar_delimiter "::".data (by decide) "a:b\nc".data
    (by decide) true
  refine ⟨h.1 ':', ?_⟩
  rw [h.2]
  decide

/-- Joining lines whose first line starts with a character exposes that
character as the head of the text. -/
theorem joinSep_cons_char (sep : List Char) (c : Char) (l : List Char)
    (ls : List (List Char)) :
    joinSep sep ((c :: l) :: ls) = c :: joinSep sep (l :: ls) := by
  cases ls with
  | nil => rfl
  | cons l2 ls2 => rfl

/-- `stripBOM` leaves a text alone when its first character is not the
BOM. -/
theorem stripBOM_cons_ne (c : Char) (x : List Char) (hc : c ≠ '\uFEFF') :
    stripBOM (c :: x) = c :: x := by
  rw [stripBOM.eq_def]
  split
  · rename_i r heq
    exfalso
    injection heq with h1 h2
    exact hc h1
  · rfl

/-- Characters other than LF are consumed by the comment skipper's scan. -/
theorem dropWhile_no_lf (l : List Char) (hn : '\n' ∉ l) (x : List Char) :
    (l ++ x).dropWhile (fun c => c != '\n') =
      x.dropWhile (fun c => c != '\n') := by
  induction l with
  | nil => rfl
  | cons c cs ih =>
      have hc : c ≠ '\n' := fun h => hn (by simp [h])
      rw [List.cons_append, List.dropWhile_cons, if_pos (by simp [hc])]
      exact ih (fun h => hn (by simp [h]))

/-- Equation: a character that is neither CR-before-LF nor LF is
accumulated by the detector's line splitter. -/
theorem splitCrLf_other (c : Char) (rest cur : List Char)
    (h2 : c ≠ '\r') (h3 : c ≠ '\n') :
    splitCrLf (c :: rest) cur = splitCrLf rest (cur ++ [c]) := by
  simp [splitCrLf, h2, h3]

/-- The splitter walks through a line free of CR and LF, accumulating
it. -/
theorem splitCrLf_clean_append (l : List Char) (hr : '\r' ∉ l)
    (hn : '\n' ∉ l) :
    ∀ x cur, splitCrLf (l ++ x) cur = splitCrLf x (cur ++ l) := by
  induction l with
  | nil => intro x cur; simp
  | cons c cs ih =>
      intro x cur
      have hcr : c ≠ '\r' := fun h => hr (by simp [h])
      have hcn : c ≠ '\n' := fun h => hn (by simp [h])
      rw [List.cons_append, splitCrLf_other c _ cur hcr hcn]
      rw [ih (fun h => hr (by simp [h])) (fun h => hn (by simp [h])) x]
      simp

/-- Splitting an LF-joined list of clean lines recovers the lines. -/
theorem splitCrLf_joinSep_lf :
    ∀ (ls : List (List Char)) (l cur : List Char),
      (∀ l' ∈ l :: ls, '\r' ∉ l' ∧ '\n' ∉ l') →
      splitCrLf (joinSep ['\n'] (l :: ls)) cur = (cur ++ l) :: ls := by
  intro ls
  induction ls with
  | nil =>
      intro l cur hcl
      show splitCrLf l cur = [cur ++ l]
      have h := splitCrLf_clean_append l (hcl l (by simp)).1
        (hcl l (by simp)).2 [] cur
      simpa using h
  | cons l2 ls2 ih =>
      intro l cur hcl
      show splitCrLf (l ++ ('\n' :: joinSep ['\n'] (l2 :: ls2))) cur = _
      rw [splitCrLf_clean_append l (hcl l (by simp)).1 (hcl l (by simp)).2]
      show (cur ++ l) :: splitCrLf (joinSep ['\n'] (l2 :: ls2)) [] = _
      rw [ih l2 [] (fun l' hl' => hcl l' (by simp at hl' ⊢; tauto))]
      simp

/-- Splitting a CRLF-joined list of clean lines recovers the lines. -/
theorem splitCrLf_joinSep_crlf :
    ∀ (ls : List (List Char)) (l cur : List Char),
      (∀ l' ∈ l :: ls, '\r' ∉ l' ∧ '\n' ∉ l') →
      splitCrLf (joinSep ['\r', '\n'] (l :: ls)) cur = (cur ++ l) :: ls := by
  intro ls
  induction ls with
  | nil =>
      intro l cur hcl
      show splitCrLf l cur = [cur ++ l]
      have h := splitCrLf_clean_append l (hcl l (by simp)).1
        (hcl l (by simp)).2 [] cur
      simpa using h
  | cons l2 ls2 ih =>
      intro l cur hcl
      show splitCrLf (l ++ ('\r' :: '\n' :: joinSep ['\r', '\n'] (l2 :: ls2)))
          cur = _
      rw [splitCrLf_clean_append l (hcl l (by simp)).1 (hcl l (by simp)).2]
      show (cur ++ l) :: splitCrLf (joinSep ['\r', '\n'] (l2 :: ls2)) [] = _
      rw [ih l2 [] (fun l' hl' => hcl l' (by simp at hl' ⊢; tauto))]
      simp

/-- Delimiter detection depends on the text only through its sample. -/
theorem detectDelimiter_congr (t1 t2 : List Char)
    (h : sampleLines t1 = sampleLines t2) :
    detectDelimiter t1 = detectDelimiter t2 := by
  have havg : ∀ dc, detAvg t1 dc = detAvg t2 dc := by
    intro dc
    unfold detAvg
    rw [h]
  unfold detectDelimiter detectStep candidates
  simp only [List.foldl, havg]

/-- The detector only ever returns one of the four candidates. -/
theorem detectDelimiter_mem (t : List Char) :
    detectDelimiter t = [','] ∨ detectDelimiter t = [';'] ∨
      detectDelimiter t = ['\t'] ∨ detectDelimiter t = ['|'] := by
  unfold detectDelimiter candidates detectStep
  simp only [List.foldl]
  split_ifs <;> simp

/-- Lockstep processing of one clean line followed by an LF on one side
and a CRLF on the other: both machines track the same state through the
line, and the two line endings close the field and row identically. -/
theorem runRows_line_lockstep (dl : List Char) (com : Option (List Char))
    (sk : Bool) (hd1 : dl ≠ ['\n']) (hd2 : dl ≠ ['\r'])
    (hc1 : com ≠ some ['\n']) (hc2 : com ≠ some ['\r']) :
    ∀ l : List Char, '\r' ∉ l → '\n' ∉ l → '"' ∉ l →
      ∀ t1 t2 : List Char,
        (∀ f r, runRows dl com sk t1 f r false =
          runRows dl com sk t2 f r false) →
        ∀ field row,
          runRows dl com sk (l ++ '\n' :: t1) field row false =
            runRows dl com sk (l ++ '\r' :: '\n' :: t2) field row false := by
  intro l
  induction l with
  | nil =>
      intro _ _ _ t1 t2 hcont field row
      simp only [List.nil_append]
      rw [runRows_lf dl com sk t1 field row
        (fun h => hc1 h.2.2) hd1]
      rw [runRows_crlf dl com sk t2 field row
        (fun h => hc2 h.2.2) hd2]
      rw [hcont [] []]
  | cons c cs ih =>
      intro hr hn hqq t1 t2 hcont field row
      have hcr : c ≠ '\r' := fun h => hr (by simp [h])
      have hcn : c ≠ '\n' := fun h => hn (by simp [h])
      have hcq : c ≠ '"' := fun h => hqq (by simp [h])
      have hr' : '\r' ∉ cs := fun h => hr (by simp [h])
      have hn' : '\n' ∉ cs := fun h => hn (by simp [h])
      have hq' : '"' ∉ cs := fun h => hqq (by simp [h])
      simp only [List.cons_append]
      by_cases hfire : field = [] ∧ row = [] ∧ com = some [c]
      · obtain ⟨hf, hrow, hcom⟩ := hfire
        subst hf
        subst hrow
        rw [runRows_comment dl com sk c _ hcom,
          runRows_comment dl com sk c _ hcom]
        have hdw1 : (((c :: (cs ++ '\n' :: t1)).dropWhile
            (fun x => x != '\n')).drop 1) = t1 := by
          rw [List.dropWhile_cons, if_pos (by simp [hcn])]
          rw [dropWhile_no_lf cs hn']
          rw [List.dropWhile_cons, if_neg (by simp)]
          rfl
        have hdw2 : (((c :: (cs ++ '\r' :: '\n' :: t2)).dropWhile
            (fun x => x != '\n')).drop 1) = t2 := by
          rw [List.dropWhile_cons, if_pos (by simp [hcn])]
          rw [dropWhile_no_lf cs hn']
          rw [List.dropWhile_cons, if_pos (by simp)]
          rw [List.dropWhile_cons, if_neg (by simp)]
          rfl
        rw [hdw1, hdw2]
        exact hcont [] []
      · by_cases hdl : dl = [c]
        · rw [runRows_delim dl com sk c _ field row hcq hfire hdl,
            runRows_delim dl com sk c _ field row hcq hfire hdl]
          exact ih hr' hn' hq' t1 t2 hcont [] (row ++ [field])
        · rw [runRows_char dl com sk c _ field row false
            (by simp [hfire]) hcq (by simp [hdl])
            (by simp; exact ⟨hcn, hcr⟩)]
          rw [runRows_char dl com sk c _ field row false
            (by simp [hfire]) hcq (by simp [hdl])
            (by simp; exact ⟨hcn, hcr⟩)]
          exact ih hr' hn' hq' t1 t2 hcont (field ++ [c]) row

/-- Tokenization is insensitive to LF vs CRLF joining of clean lines. -/
theorem runRows_joinSep_lockstep (dl : List Char) (com : Option (List Char))
    (sk : Bool) (hd1 : dl ≠ ['\n']) (hd2 : dl ≠ ['\r'])
    (hc1 : com ≠ some ['\n']) (hc2 : com ≠ some ['\r']) :
    ∀ ls : List (List Char),
      (∀ l ∈ ls, '\r' ∉ l ∧ '\n' ∉ l ∧ '"' ∉ l) →
      ∀ field row,
        runRows dl com sk (joinSep ['\n'] ls) field row false =
          runRows dl com sk (joinSep ['\r', '\n'] ls) field row false := by
  intro ls
  induction ls with
  | nil => intro _ f r; rfl
  | cons l ls ih =>
      intro hcl f r
      cases ls with
      | nil => rfl
      | cons l2 ls2 =>
          show runRows dl com sk (l ++ ('\n' :: joinSep ['\n'] (l2 :: ls2)))
              f r false = runRows dl com sk
              (l ++ ('\r' :: '\n' :: joinSep ['\r', '\n'] (l2 :: ls2)))
              f r false
          exact runRows_line_lockstep dl com sk hd1 hd2 hc1 hc2 l
            (hcl l (by simp)).1 (hcl l (by simp)).2.1 (hcl l (by simp)).2.2
            _ _
            (fun f' r' => ih (fun l' hl' => hcl l' (by simp [hl'])) f' r')
            f r

/-- C6 counterexample: `"a\n\"x\ny\""` and `"a\r\n\"x\r\ny\""` are
identical except for LF vs CRLF, but the second line ending lies inside a
quoted field, where the tokenizer copies the characters verbatim: the
single record's value is `"x\ny"` in one case and `"x\r\ny"` in the
other. -/
theorem c6_counterexample :
    parseCSV "a\n\"x\ny\"".data { delimiter := some [','] } ≠
      parseCSV "a\r\n\"x\r\ny\"".data { delimiter := some [','] } := by
  have h1 : parseRows "a\n\"x\ny\"".data [','] none true =
      [["a".data], ["x\ny".data]] := by
    simp [parseRows, runRows, emitRow, jsTrim, isJsSpace]
  have h2 : parseRows "a\r\n\"x\r\ny\"".data [','] none true =
      [["a".data], ["x\r\ny".data]] := by
    simp [parseRows, runRows, emitRow, jsTrim, isJsSpace]
  show projectAll { delimiter := some [','] }
      (parseRows "a\n\"x\ny\"".data [','] none true) ≠
    projectAll { delimiter := some [','] }
      (parseRows "a\r\n\"x\r\ny\"".data [','] none true)
  rw [h1, h2]
  decide

/-- C6 (amended): for texts assembled from lines containing no CR, LF, or
quote character (so that every line ending is a physical row separator,
outside quotes), parsing with identical options yields identical record
sequences for the LF-joined and CRLF-joined texts — provided the
explicitly configured delimiter, if any, is not itself CR or LF (the
auto-detected delimiter never is) and the comment prefix is not CR or
LF. -/
theorem c6_amended (ls : List (List Char))
    (hclean : ∀ l ∈ ls, '\r' ∉ l ∧ '\n' ∉ l ∧ '"' ∉ l)
    (o : CsvOptions)
    (hdelim : ∀ dl, o.delimiter = some dl → dl ≠ ['\n'] ∧ dl ≠ ['\r'])
    (hcom : o.comment ≠ some ['\n'] ∧ o.comment ≠ some ['\r']) :
    parseCSV (joinSep ['\n'] ls) o = parseCSV (joinSep ['\r', '\n'] ls) o := by
  have main : ∀ cls : List (List Char),
      (∀ l' ∈ cls, '\r' ∉ l' ∧ '\n' ∉ l' ∧ '"' ∉ l') →
      projectAll o (parseRows (joinSep ['\n'] cls)
          (resolveDelim o (joinSep ['\n'] cls)) o.comment o.skipEmptyLines) =
        projectAll o (parseRows (joinSep ['\r', '\n'] cls)
          (resolveDelim o (joinSep ['\r', '\n'] cls)) o.comment
          o.skipEmptyLines) := by
    intro cls hcl
    have hdl : resolveDelim o (joinSep ['\n'] cls) =
        resolveDelim o (joinSep ['\r', '\n'] cls) := by
      unfold resolveDelim
      cases hop : o.delimiter with
      | some d0 => rfl
      | none =>
          apply detectDelimiter_congr
          rcases cls with _ | ⟨l0, ls0⟩
          · rfl
          · unfold sampleLines
            rw [splitCrLf_joinSep_lf ls0 l0 []
                (fun l' hl' => ⟨(hcl l' hl').1, (hcl l' hl').2.1⟩),
              splitCrLf_joinSep_crlf ls0 l0 []
                (fun l' hl' => ⟨(hcl l' hl').1, (hcl l' hl').2.1⟩)]
    have hdn : resolveDelim o (joinSep ['\r', '\n'] cls) ≠ ['\n'] ∧
        resolveDelim o (joinSep ['\r', '\n'] cls) ≠ ['\r'] := by
      unfold resolveDelim
      cases hop : o.delimiter with
      | some d0 => exact hdelim d0 hop
      | none =>
          rcases detectDelimiter_mem (joinSep ['\r', '\n'] cls) with
            h | h | h | h <;> rw [h] <;> exact ⟨by decide, by decide⟩
    rw [hdl]
    exact congrArg (projectAll o)
      (runRows_joinSep_lockstep (resolveDelim o (joinSep ['\r', '\n'] cls))
        o.comment o.skipEmptyLines hdn.1 hdn.2 hcom.1 hcom.2 cls hcl [] [])
  rcases ls with _ | ⟨l, ls'⟩
  · rfl
  rcases l with _ | ⟨c, l''⟩
  · -- first line empty: the text starts with the separator (or is empty)
    rw [parseCSV_eq, parseCSV_eq]
    have hs1 : stripBOM (joinSep ['\n'] ([] :: ls')) =
        joinSep ['\n'] ([] :: ls') := by
      cases ls' with
      | nil => rfl
      | cons l2 ls2 => rfl
    have hs2 : stripBOM (joinSep ['\r', '\n'] ([] :: ls')) =
        joinSep ['\r', '\n'] ([] :: ls') := by
      cases ls' with
      | nil => rfl
      | cons l2 ls2 => rfl
    rw [hs1, hs2]
    exact main ([] :: ls') hclean
  · by_cases hbom : c = '\uFEFF'
    · subst hbom
      rw [parseCSV_eq, parseCSV_eq, joinSep_cons_char, joinSep_cons_char]
      rw [show ∀ x : List Char, stripBOM ('\uFEFF' :: x) = x from fun x => rfl]
      rw [show ∀ x : List Char, stripBOM ('\uFEFF' :: x) = x from fun x => rfl]
      apply main (l'' :: ls')
      intro l' hl'
      rcases List.mem_cons.mp hl' with h | h
      · subst h
        have hc := hclean ('\uFEFF' :: l') (by simp)
        exact ⟨fun hh => hc.1 (by simp [hh]),
          fun hh => hc.2.1 (by simp [hh]),
          fun hh => hc.2.2 (by simp [hh])⟩
      · exact hclean l' (by simp [h])
    · rw [parseCSV_eq, parseCSV_eq, joinSep_cons_char, joinSep_cons_char]
      rw [stripBOM_cons_ne c _ hbom, stripBOM_cons_ne c _ hbom]
      rw [← joinSep_cons_char, ← joinSep_cons_char]
      exact main ((c :: l'') :: ls') hclean

/-- C6 amended-claim witness: `"a,b\n1,2"` and `"a,b\r\n1,2"` parse to the
same records under default options. -/
theorem c6_witness :
    parseCSV "a,b\n1,2".data {} = parseCSV "a,b\r\n1,2".data {} :=
  c6_amended ["a,b".data, "1,2".data] (by decide) {}
    (fun dl hdl => by simp at hdl) ⟨by decide, by decide⟩

/-- C9 counterexample: for the input `" "` (a single space, no trailing
line terminator) the final row buffer holds the single non-empty field
`" "`, so the claim says the row is emitted; the tokenizer's emission
routine discards it because skip-empty-lines (on by default) sees a single
field whose trimmed value is empty. -/
theorem c9_counterexample :
    parseRows " ".data [','] none true = [] ∧ " ".data ≠ ([] : List Char) := by
  constructor
  · simp [parseRows, runRows, emitRow, jsTrim, isJsSpace]
  · decide

/-- C9 (amended): at end of input the tokenizer closes the current field
unconditionally; the final row is then handed to the row-emission routine
only if it has more than one field or its single field is non-empty, and
that routine additionally discards a single-field row whose trimmed value
is empty whenever skip-empty-lines is enabled.  So the final row is
emitted iff both conditions hold. -/
theorem c9_amended (d : List Char) (com : Option (List Char))
    (skipEmpty : Bool) (field : List Char) (row : List (List Char))
    (inQ : Bool) :
    runRows d com skipEmpty [] field row inQ =
      if (1 < (row ++ [field]).length ∨ (row ++ [field]).headI ≠ []) ∧
          ¬(skipEmpty ∧ (row ++ [field]).length = 1 ∧
            jsTrim (row ++ [field]).headI = [])
        then [row ++ [field]] else [] := by
  rw [runRows_nil]
  unfold emitRow
  split_ifs <;> tauto

end CsvToArray
